import Mathlib

/-!
Shallow embedding of the N-dimensional convolution core of `ndarray-conv`:
the mode resolver `ConvMode.unfold` and the convolution engine `conv`
(`src/conv/mod.rs`), together with the padding and dilation collaborators,
which are not part of the core source and are modelled from their interface
contracts in the specification.

Machine integers (`usize`) are embedded as `Nat`.  A subtraction or a
division that would fault at runtime (underflow, division by zero) is
modelled by `csub` / `cdiv` returning `none`, and `conv` reports such a
fault as `Except.error ConvFault.arith`; a normal return of the source's
`Option<Array<..>>` is modelled as `Except.ok`.
-/

/-- Checked natural subtraction: `none` models a `usize` underflow fault. -/
def csub (a b : Nat) : Option Nat := if b ≤ a then some (a - b) else none

/-- Checked natural division: `none` models a division-by-zero fault. -/
def cdiv (a b : Nat) : Option Nat := if b = 0 then none else some (a / b)

/-- A dense N-dimensional array: a shape and a flat row-major data buffer. -/
structure NdArray (T : Type) where
  shape : List Nat
  data : List T
deriving DecidableEq

/-- `ConvMode<N>`: the declarative convolution mode (`Full`, `Same`, `Valid`,
`Custom`, `Explicit`).  The `[usize; N]` arrays are embedded as lists. -/
inductive ConvMode where
  | full
  | same
  | valid
  | custom (padding : List Nat) (strides : List Nat)
  | explicit (padding : List (Nat × Nat)) (strides : List Nat)
deriving DecidableEq

/-- `ExplicitConv<N>`: resolved per-dimension `(before, after)` padding and
strides, the output of mode resolution. -/
structure ExplicitConv where
  padding : List (Nat × Nat)
  strides : List Nat
deriving DecidableEq

/-- A runtime arithmetic fault of the source (`usize` underflow on
subtraction, or division by zero). -/
inductive ConvFault where
  | arith
deriving DecidableEq

/-- Modelled from the spec: the border fill policy consumed by the padding
collaborator.  The spec requires at least a zero-fill policy; a constant
fill is the general form of a data-independent policy. -/
inductive PaddingMode (T : Type) where
  | zeros
  | const (c : T)
deriving DecidableEq

/-- The value a `PaddingMode` places in cells outside the input footprint. -/
def PaddingMode.fill {T : Type} [Zero T] : PaddingMode T → T
  | .zeros => 0
  | .const c => c

/-- The per-dimension dilated kernel span `k * d - d + 1`
(`src/conv/mod.rs` lines 27-30 and 95-97), with the source's unchecked
`usize` subtraction embedded as `csub`. -/
def spanList : List Nat → List Nat → Option (List Nat)
  | [], [] => some []
  | k :: ks, d :: ds =>
      (csub (k * d) d).bind fun s =>
        (spanList ks ds).bind fun rest => some ((s + 1) :: rest)
  | _, _ => none

/-- The `Full` branch padding `[span - 1, span - 1]` per dimension
(`src/conv/mod.rs` line 34). -/
def fullPadList : List Nat → Option (List (Nat × Nat))
  | [] => some []
  | s :: rest =>
      (csub s 1).bind fun h =>
        (fullPadList rest).bind fun r => some ((h, h) :: r)

/-- The `Same` branch padding per dimension (`src/conv/mod.rs` lines 38-45):
`[(span-1)/2 + 1, (span-1)/2]` for an even span, `[(span-1)/2; 2]` for an
odd span. -/
def samePadList : List Nat → Option (List (Nat × Nat))
  | [] => some []
  | s :: rest =>
      (csub s 1).bind fun h =>
        (samePadList rest).bind fun r =>
          some ((if s % 2 = 0 then (h / 2 + 1, h / 2) else (h / 2, h / 2)) :: r)

/-- `ConvMode::unfold` (`src/conv/mod.rs` lines 21-58): resolve a mode,
given the kernel shape and dilation, into explicit padding and strides.
The dilated spans are computed before the mode is matched, exactly as in
the source. -/
def ConvMode.unfold (m : ConvMode) (kshape dilation : List Nat) :
    Option ExplicitConv :=
  (spanList kshape dilation).bind fun spans =>
    match m with
    | .full => (fullPadList spans).bind fun p => some ⟨p, List.replicate spans.length 1⟩
    | .same => (samePadList spans).bind fun p => some ⟨p, List.replicate spans.length 1⟩
    | .valid => some ⟨List.replicate spans.length (0, 0), List.replicate spans.length 1⟩
    | .custom padding strides => some ⟨padding.map fun p => (p, p), strides⟩
    | .explicit padding strides => some ⟨padding, strides⟩

/-- Row-major memory strides of a shape: `strides[i] = prod shape[i+1..]`. -/
def rowMajorStrides : List Nat → List Nat
  | [] => []
  | _ :: rest => rest.prod :: rowMajorStrides rest

/-- All multi-indices of a shape, enumerated in row-major order. -/
def indicesOf : List Nat → List (List Nat)
  | [] => [[]]
  | n :: rest => (List.range n).flatMap fun i => (indicesOf rest).map fun idx => i :: idx

/-- Flat memory index of a multi-index under given per-dimension strides. -/
def flatIndex (strides idx : List Nat) : Nat :=
  (List.zipWith (fun s i => s * i) strides idx).sum

/-- Whether a padded-buffer multi-index lies inside the original input's
footprint (offset by the before-padding in each dimension). -/
def inFootprint (shape : List Nat) (padding : List (Nat × Nat)) (x : List Nat) : Bool :=
  (x.zip (shape.zip padding)).all fun t =>
    decide (t.2.2.1 ≤ t.1 ∧ t.1 < t.2.2.1 + t.2.1)

/-- Modelled from the spec: the padding collaborator
`pad(array, fill_policy, per_dimension_padding)`.  The padded buffer has
shape `input_shape[i] + padding[i][0] + padding[i][1]`, the input occupies
the sub-region offset by `padding[i][0]`, and every other cell holds the
fill value. -/
def padArray {T : Type} [Zero T] (input : NdArray T) (pm : PaddingMode T)
    (padding : List (Nat × Nat)) : NdArray T :=
  let pshape := List.zipWith (fun n p => n + p.1 + p.2) input.shape padding
  let istrides := rowMajorStrides input.shape
  ⟨pshape,
    (indicesOf pshape).map fun x =>
      if inFootprint input.shape padding x then
        input.data.getD (flatIndex istrides (List.zipWith (fun xi p => xi - p.1) x padding)) 0
      else pm.fill⟩

/-- Modelled from the spec: the dilation collaborator's `gen_offset_list`.
One `(flat_offset, weight)` entry per kernel position `j` in row-major
order; the offset contribution of dimension `i` is
`j[i] * dilation[i] * padded_stride[i]`. -/
def genOffsetList {T : Type} [Zero T] (kernel : NdArray T)
    (dilation pstrides : List Nat) : List (Nat × T) :=
  (indicesOf kernel.shape).map fun j =>
    (flatIndex (List.zipWith (fun d ps => d * ps) dilation pstrides) j,
     kernel.data.getD (flatIndex (rowMajorStrides kernel.shape) j) 0)

/-- The output extents `(padding.0 + padding.1 + input - span) / stride + 1`
(`src/conv/mod.rs` lines 98-103), with the source's unchecked `usize`
subtraction and division embedded as `csub` / `cdiv`. -/
def outDimList : List (Nat × Nat) → List Nat → List Nat → List Nat → Option (List Nat)
  | [], [], [], [] => some []
  | p :: ps, n :: ns, sp :: sps, st :: sts =>
      (csub (p.1 + p.2 + n) sp).bind fun a =>
        (cdiv a st).bind fun q =>
          (outDimList ps ns sps sts).bind fun rest => some ((q + 1) :: rest)
  | _, _, _, _ => none

/-- `conv` (`src/conv/mod.rs` lines 80-136): resolve the mode, pad the
input, build the tap offset list, compute the output shape (recomputing the
dilated spans as the source does), and fill each output cell, in row-major
order, with the weighted sum of the taps read at its anchor in the padded
buffer. -/
def conv {T : Type} [Zero T] [Add T] [Mul T] (input kernel : NdArray T)
    (dilation : List Nat) (mode : ConvMode) (pm : PaddingMode T) :
    Except ConvFault (Option (NdArray T)) :=
  match ConvMode.unfold mode kernel.shape dilation with
  | none => .error .arith
  | some cm =>
    let pds := padArray input pm cm.padding
    let pstrides := rowMajorStrides pds.shape
    let offsetList := genOffsetList kernel dilation pstrides
    match spanList kernel.shape dilation with
    | none => .error .arith
    | some spans =>
      match outDimList cm.padding input.shape spans cm.strides with
      | none => .error .arith
      | some oshape =>
        let vstrides := List.zipWith (fun s ps => s * ps) cm.strides pstrides
        .ok (some ⟨oshape,
          (indicesOf oshape).map fun y =>
            offsetList.foldl
              (fun acc ow => acc + pds.data.getD (flatIndex vstrides y + ow.1) 0 * ow.2)
              0⟩)

/-- Modelled from the spec: a bare kernel used without the dilation feature
enters `conv` as a kernel-with-dilation whose dilation factor is 1 in every
dimension (the `IntoKernelWithDilation` conversion of the dilation
collaborator). -/
def convNoDilationFeature {T : Type} [Zero T] [Add T] [Mul T]
    (input kernel : NdArray T) (mode : ConvMode) (pm : PaddingMode T) :
    Except ConvFault (Option (NdArray T)) :=
  conv input kernel (List.replicate kernel.shape.length 1) mode pm

/-- The specification's dilated kernel span, `k * d - d + 1`, per
dimension. -/
def specSpans (kshape dilation : List Nat) : List Nat :=
  List.zipWith (fun k d => k * d - d + 1) kshape dilation

/-- The specification's output-shape formula
`(padding.0 + padding.1 + input - span) / stride + 1` per dimension, with
floor division. -/
def specOutputShape : List (Nat × Nat) → List Nat → List Nat → List Nat → List Nat
  | p :: ps, n :: ns, sp :: sps, st :: sts =>
      ((p.1 + p.2 + n - sp) / st + 1) :: specOutputShape ps ns sps sts
  | _, _, _, _ => []

/-- The `Same`-mode padding of one dimension as a function of its span. -/
def samePadFn (s : Nat) : Nat × Nat :=
  if s % 2 = 0 then ((s - 1) / 2 + 1, (s - 1) / 2) else ((s - 1) / 2, (s - 1) / 2)

deriving instance DecidableEq for Except

-- Sanity examples evaluating the engine on the repository's own tests.

example :
    conv (⟨[6], [1, 2, 3, 4, 5, 6]⟩ : NdArray Int) ⟨[3], [1, 1, 1]⟩ [1]
      (ConvMode.custom [4] [2]) PaddingMode.zeros =
    .ok (some ⟨[6], [0, 1, 6, 12, 11, 0]⟩) := by decide

example :
    conv (⟨[2, 2], [1, 2, 3, 4]⟩ : NdArray Int) ⟨[2, 2], [1, 1, 1, 1]⟩ [1, 1]
      ConvMode.full PaddingMode.zeros =
    .ok (some ⟨[3, 3], [1, 3, 2, 4, 10, 6, 3, 7, 4]⟩) := by decide

-- Lemmas about the checked arithmetic.

theorem csub_eq_some {a b x : Nat} : csub a b = some x ↔ b ≤ a ∧ x = a - b := by
  unfold csub
  split <;> simp_all [eq_comm]

theorem cdiv_eq_some {a b q : Nat} : cdiv a b = some q ↔ b ≠ 0 ∧ q = a / b := by
  unfold cdiv
  split <;> simp_all [eq_comm]

-- Lemmas about the dilated-span computation.

theorem spanList_some_eq {ks ds sp : List Nat} (h : spanList ks ds = some sp) :
    sp = specSpans ks ds := by
  induction ks generalizing ds sp with
  | nil =>
    cases ds with
    | nil =>
      simp only [spanList, Option.some.injEq] at h
      simp [specSpans, ← h]
    | cons d ds => simp [spanList] at h
  | cons k ks ih =>
    cases ds with
    | nil => simp [spanList] at h
    | cons d ds =>
      simp only [spanList, Option.bind_eq_some, Option.some.injEq] at h
      obtain ⟨s, hc, rest, hr, h⟩ := h
      obtain ⟨hle, hs⟩ := csub_eq_some.mp hc
      subst h hs
      simp [specSpans, ih hr]

theorem spanList_some_len {ks ds sp : List Nat} (h : spanList ks ds = some sp) :
    ks.length = ds.length ∧ sp.length = ks.length := by
  induction ks generalizing ds sp with
  | nil =>
    cases ds with
    | nil =>
      simp only [spanList, Option.some.injEq] at h
      simp [← h]
    | cons d ds => simp [spanList] at h
  | cons k ks ih =>
    cases ds with
    | nil => simp [spanList] at h
    | cons d ds =>
      simp only [spanList, Option.bind_eq_some, Option.some.injEq] at h
      obtain ⟨s, hc, rest, hr, h⟩ := h
      subst h
      obtain ⟨h1, h2⟩ := ih hr
      simp [h1, h2]

theorem spanList_mem_pos {ks ds sp : List Nat} (h : spanList ks ds = some sp) :
    ∀ s ∈ sp, 1 ≤ s := by
  induction ks generalizing ds sp with
  | nil =>
    cases ds with
    | nil =>
      simp only [spanList, Option.some.injEq] at h
      simp [← h]
    | cons d ds => simp [spanList] at h
  | cons k ks ih =>
    cases ds with
    | nil => simp [spanList] at h
    | cons d ds =>
      simp only [spanList, Option.bind_eq_some, Option.some.injEq] at h
      obtain ⟨s, hc, rest, hr, h⟩ := h
      subst h
      intro x hx
      rcases List.mem_cons.mp hx with hx | hx
      · omega
      · exact ih hr x hx

theorem spanList_total {ks ds : List Nat} (hlen : ks.length = ds.length)
    (h : ∀ p ∈ ks.zip ds, p.2 ≤ p.1 * p.2) :
    spanList ks ds = some (specSpans ks ds) := by
  induction ks generalizing ds with
  | nil =>
    cases ds with
    | nil => rfl
    | cons d ds => simp at hlen
  | cons k ks ih =>
    cases ds with
    | nil => simp at hlen
    | cons d ds =>
      have hd : d ≤ k * d := h (k, d) (by simp)
      have hc : csub (k * d) d = some (k * d - d) := csub_eq_some.mpr ⟨hd, rfl⟩
      have hr := ih (by simpa using hlen) fun p hp => h p (List.mem_cons_of_mem _ hp)
      rw [spanList, hc, hr]
      simp [specSpans]

-- Lemmas about the Full and Same padding computations.

theorem fullPadList_total {sp : List Nat} (h : ∀ s ∈ sp, 1 ≤ s) :
    fullPadList sp = some (sp.map fun s => (s - 1, s - 1)) := by
  induction sp with
  | nil => rfl
  | cons s rest ih =>
    have hs : 1 ≤ s := h s (by simp)
    have hc : csub s 1 = some (s - 1) := csub_eq_some.mpr ⟨hs, rfl⟩
    have hr := ih fun x hx => h x (List.mem_cons_of_mem _ hx)
    rw [fullPadList, hc, hr]
    simp

theorem samePadList_total {sp : List Nat} (h : ∀ s ∈ sp, 1 ≤ s) :
    samePadList sp = some (sp.map samePadFn) := by
  induction sp with
  | nil => rfl
  | cons s rest ih =>
    have hs : 1 ≤ s := h s (by simp)
    have hc : csub s 1 = some (s - 1) := csub_eq_some.mpr ⟨hs, rfl⟩
    have hr := ih fun x hx => h x (List.mem_cons_of_mem _ hx)
    rw [samePadList, hc, hr]
    simp [samePadFn]

-- Characterizations of the mode resolver on each variant.

theorem unfold_full_eq {ks ds sp : List Nat} (h : spanList ks ds = some sp) :
    ConvMode.unfold ConvMode.full ks ds =
      some ⟨sp.map fun s => (s - 1, s - 1), List.replicate sp.length 1⟩ := by
  rw [ConvMode.unfold, h, Option.some_bind]
  simp [fullPadList_total (spanList_mem_pos h)]

theorem unfold_same_eq {ks ds sp : List Nat} (h : spanList ks ds = some sp) :
    ConvMode.unfold ConvMode.same ks ds =
      some ⟨sp.map samePadFn, List.replicate sp.length 1⟩ := by
  rw [ConvMode.unfold, h, Option.some_bind]
  simp [samePadList_total (spanList_mem_pos h)]

theorem unfold_valid_eq {ks ds sp : List Nat} (h : spanList ks ds = some sp) :
    ConvMode.unfold ConvMode.valid ks ds =
      some ⟨List.replicate sp.length (0, 0), List.replicate sp.length 1⟩ := by
  rw [ConvMode.unfold, h, Option.some_bind]

theorem unfold_custom_eq {ks ds : List Nat} {sp : List Nat}
    (h : spanList ks ds = some sp) (pad strides : List Nat) :
    ConvMode.unfold (ConvMode.custom pad strides) ks ds =
      some ⟨pad.map fun p => (p, p), strides⟩ := by
  rw [ConvMode.unfold, h, Option.some_bind]

theorem unfold_explicit_eq {ks ds : List Nat} {sp : List Nat}
    (h : spanList ks ds = some sp) (pad : List (Nat × Nat)) (strides : List Nat) :
    ConvMode.unfold (ConvMode.explicit pad strides) ks ds = some ⟨pad, strides⟩ := by
  rw [ConvMode.unfold, h, Option.some_bind]

theorem unfold_some_spanList {m : ConvMode} {ks ds : List Nat} {cm : ExplicitConv}
    (h : ConvMode.unfold m ks ds = some cm) : ∃ sp, spanList ks ds = some sp := by
  rw [ConvMode.unfold] at h
  rcases hs : spanList ks ds with _ | sp
  · rw [hs] at h
    simp at h
  · exact ⟨sp, rfl⟩

-- Lemmas about the output-extent computation.

theorem outDimList_some_eq {ps : List (Nat × Nat)} {ns sps sts o : List Nat}
    (h : outDimList ps ns sps sts = some o) : o = specOutputShape ps ns sps sts := by
  induction ps generalizing ns sps sts o with
  | nil =>
    cases ns <;> cases sps <;> cases sts <;> simp_all [outDimList, specOutputShape]
  | cons p ps ih =>
    cases ns with
    | nil => cases sps <;> cases sts <;> simp [outDimList] at h
    | cons n ns =>
      cases sps with
      | nil => cases sts <;> simp [outDimList] at h
      | cons sp sps =>
        cases sts with
        | nil => simp [outDimList] at h
        | cons st sts =>
          simp only [outDimList, Option.bind_eq_some, Option.some.injEq] at h
          obtain ⟨a, ha, q, hq, rest, hr, h⟩ := h
          obtain ⟨hle, hav⟩ := csub_eq_some.mp ha
          obtain ⟨hst, hqv⟩ := cdiv_eq_some.mp hq
          subst h hav hqv
          simp [specOutputShape, ih hr]

theorem outDim_same {sp ns : List Nat} (h1 : ∀ s ∈ sp, 1 ≤ s)
    (h2 : ∀ n ∈ ns, 1 ≤ n) (hlen : sp.length = ns.length) :
    outDimList (sp.map samePadFn) ns sp (List.replicate sp.length 1) = some ns := by
  induction sp generalizing ns with
  | nil =>
    cases ns with
    | nil => rfl
    | cons n ns => simp at hlen
  | cons s rest ih =>
    cases ns with
    | nil => simp at hlen
    | cons n ns =>
      have hs : 1 ≤ s := h1 s (by simp)
      have hn : 1 ≤ n := h2 n (by simp)
      have hsum : (samePadFn s).1 + (samePadFn s).2 + 1 = s := by
        unfold samePadFn
        split <;> (simp; omega)
      have ha : csub ((samePadFn s).1 + (samePadFn s).2 + n) s = some (n - 1) :=
        csub_eq_some.mpr ⟨by omega, by omega⟩
      have hq : cdiv (n - 1) 1 = some (n - 1) := cdiv_eq_some.mpr ⟨one_ne_zero, by simp⟩
      have hr := ih (fun x hx => h1 x (List.mem_cons_of_mem _ hx))
        (fun x hx => h2 x (List.mem_cons_of_mem _ hx)) (by simpa using hlen)
      simp only [List.map_cons, List.length_cons, List.replicate_succ]
      rw [outDimList, ha, Option.some_bind, hq, Option.some_bind, hr, Option.some_bind]
      have hn1 : n - 1 + 1 = n := by omega
      rw [hn1]

theorem outDim_full {sp ns : List Nat} (h1 : ∀ s ∈ sp, 1 ≤ s)
    (h2 : ∀ p ∈ ns.zip sp, 2 ≤ p.1 + p.2) (hlen : sp.length = ns.length) :
    outDimList (sp.map fun s => (s - 1, s - 1)) ns sp (List.replicate sp.length 1) =
      some (List.zipWith (fun n s => n + s - 1) ns sp) := by
  induction sp generalizing ns with
  | nil =>
    cases ns with
    | nil => rfl
    | cons n ns => simp at hlen
  | cons s rest ih =>
    cases ns with
    | nil => simp at hlen
    | cons n ns =>
      have hs : 1 ≤ s := h1 s (by simp)
      have hns : 2 ≤ n + s := h2 (n, s) (by simp)
      have ha : csub ((s - 1) + (s - 1) + n) s = some (n + s - 2) :=
        csub_eq_some.mpr ⟨by omega, by omega⟩
      have hq : cdiv (n + s - 2) 1 = some (n + s - 2) := cdiv_eq_some.mpr ⟨one_ne_zero, by simp⟩
      have hr := ih (fun x hx => h1 x (List.mem_cons_of_mem _ hx))
        (fun x hx => h2 x (List.mem_cons_of_mem _ hx)) (by simpa using hlen)
      simp only [List.map_cons, List.length_cons, List.replicate_succ, List.zipWith_cons_cons]
      rw [outDimList, ha, Option.some_bind, hq, Option.some_bind, hr, Option.some_bind]
      have hn1 : n + s - 2 + 1 = n + s - 1 := by omega
      rw [hn1]

-- Reduction and inversion lemmas for the engine.

theorem conv_ok_of {T : Type} [Zero T] [Add T] [Mul T]
    {input kernel : NdArray T} {dilation : List Nat} {mode : ConvMode}
    {pm : PaddingMode T} {cm : ExplicitConv} {sp o : List Nat}
    (hu : ConvMode.unfold mode kernel.shape dilation = some cm)
    (hsp : spanList kernel.shape dilation = some sp)
    (ho : outDimList cm.padding input.shape sp cm.strides = some o) :
    ∃ out, conv input kernel dilation mode pm = .ok (some out) ∧ out.shape = o := by
  simp only [conv, hu, hsp, ho]
  exact ⟨_, rfl, rfl⟩

theorem conv_ok_inv {T : Type} [Zero T] [Add T] [Mul T]
    {input kernel : NdArray T} {dilation : List Nat} {mode : ConvMode}
    {pm : PaddingMode T} {out : NdArray T}
    (h : conv input kernel dilation mode pm = .ok (some out)) :
    ∃ cm sp, ConvMode.unfold mode kernel.shape dilation = some cm ∧
      spanList kernel.shape dilation = some sp ∧
      outDimList cm.padding input.shape sp cm.strides = some out.shape := by
  simp only [conv] at h
  split at h
  · simp at h
  rename_i cm hu
  split at h
  · simp at h
  rename_i sp hsp
  split at h
  · simp at h
  rename_i o ho
  simp only [Except.ok.injEq, Option.some.injEq] at h
  refine ⟨cm, sp, hu, hsp, ?_⟩
  rw [← h]
  exact ho

-- Small helpers about list indexing.

theorem getD_map_lt {α β : Type} (f : α → β) (l : List α) (i : Nat) (d : α) (e : β)
    (h : i < l.length) : (l.map f).getD i e = f (l.getD i d) := by
  induction l generalizing i with
  | nil => simp at h
  | cons x xs ih =>
    cases i with
    | zero => rfl
    | succ i => exact ih i (by simpa using h)

theorem getD_mem_lt {α : Type} (l : List α) (i : Nat) (d : α) (h : i < l.length) :
    l.getD i d ∈ l := by
  induction l generalizing i with
  | nil => simp at h
  | cons x xs ih =>
    cases i with
    | zero => simp
    | succ i => exact List.mem_cons_of_mem _ (ih i (by simpa using h))

-- Claim theorems.

/-- C1: the claim demands that `conv` detect a dilated kernel span exceeding
the padded input extent before computing the output shape and report it as a
distinct typed error.  The source has no such check: on the 1-D input `[1]`
with kernel `[1,1,1]` (span 3) in `Valid` mode, the shape subtraction
underflows and the call ends in a runtime arithmetic fault instead of a
typed error value. -/
theorem conv_kernel_too_big_faults :
    conv (⟨[1], [1]⟩ : NdArray Int) ⟨[3], [1, 1, 1]⟩ [1] ConvMode.valid PaddingMode.zeros =
      .error ConvFault.arith := by decide

/-- C8: the 1-D input `[1,2,3,4,5,6]` convolved with kernel `[1,1,1]` under
dilation 2, symmetric padding 4, stride 2 and zero fill yields
`[1,4,9,8,5]`. -/
theorem conv_dilated_example :
    conv (⟨[6], [1, 2, 3, 4, 5, 6]⟩ : NdArray Int) ⟨[3], [1, 1, 1]⟩ [2]
      (ConvMode.custom [4] [2]) PaddingMode.zeros =
      .ok (some ⟨[5], [1, 4, 9, 8, 5]⟩) := by decide

/-- C10: for every input, kernel, dilation, mode and fill policy, `conv`
either ends in a runtime fault or returns `Some` output; the `None` branch
of its return type is never produced. -/
theorem conv_never_ok_none {T : Type} [Zero T] [Add T] [Mul T]
    (input kernel : NdArray T) (dilation : List Nat) (mode : ConvMode)
    (pm : PaddingMode T) :
    conv input kernel dilation mode pm = .error ConvFault.arith ∨
    ∃ out, conv input kernel dilation mode pm = .ok (some out) := by
  simp only [conv]
  split
  · exact Or.inl rfl
  split
  · exact Or.inl rfl
  split
  · exact Or.inl rfl
  exact Or.inr ⟨_, rfl⟩

/-- C6: for every input, kernel, dilation and fill policy,
`Custom {padding, strides}` produces exactly the same result as
`Explicit` with the symmetric padding pairs `[(p, p)]` and the same
strides. -/
theorem conv_custom_eq_explicit {T : Type} [Zero T] [Add T] [Mul T]
    (input kernel : NdArray T) (dilation : List Nat) (pad strides : List Nat)
    (pm : PaddingMode T) :
    conv input kernel dilation (ConvMode.custom pad strides) pm =
      conv input kernel dilation (ConvMode.explicit (pad.map fun p => (p, p)) strides) pm := rfl

/-- C7: running `conv` with an explicit dilation factor of 1 in every
dimension produces exactly the same output as running it on the bare kernel
with the dilation feature unused (which enters as dilation 1 per
dimension). -/
theorem conv_dilation_one_eq_no_dilation {T : Type} [Zero T] [Add T] [Mul T]
    (input kernel : NdArray T) (dilation : List Nat) (mode : ConvMode)
    (pm : PaddingMode T) (h1 : ∀ d ∈ dilation, d = 1)
    (hlen : dilation.length = kernel.shape.length) :
    conv input kernel dilation mode pm = convNoDilationFeature input kernel mode pm := by
  have hd : dilation = List.replicate kernel.shape.length 1 :=
    List.eq_replicate_iff.mpr ⟨hlen, h1⟩
  rw [hd]
  rfl

/-- Witness for C7 at a concrete 2-D instance. -/
theorem conv_dilation_one_eq_no_dilation_witness :
    (∀ d ∈ ([1, 1] : List Nat), d = 1) ∧
    ([1, 1] : List Nat).length = (⟨[2, 2], [1, 1, 1, 1]⟩ : NdArray Int).shape.length ∧
    conv (⟨[3, 3], [1, 1, 1, 1, 1, 1, 1, 1, 1]⟩ : NdArray Int) ⟨[2, 2], [1, 1, 1, 1]⟩
        [1, 1] ConvMode.same PaddingMode.zeros =
      convNoDilationFeature ⟨[3, 3], [1, 1, 1, 1, 1, 1, 1, 1, 1]⟩ ⟨[2, 2], [1, 1, 1, 1]⟩
        ConvMode.same PaddingMode.zeros :=
  ⟨by decide, by decide,
    conv_dilation_one_eq_no_dilation _ _ _ _ _ (by decide) (by decide)⟩

/-- C2: whenever `conv` returns an output array, its shape is, in every
dimension, `(padding.0 + padding.1 + input - dilated_span) / stride + 1`
with floor division, taking padding and strides from the mode-resolved
values and `dilated_span = k * d - d + 1`. -/
theorem conv_output_shape_formula {T : Type} [Zero T] [Add T] [Mul T]
    {input kernel : NdArray T} {dilation : List Nat} {mode : ConvMode}
    {pm : PaddingMode T} {cm : ExplicitConv} {out : NdArray T}
    (hcm : ConvMode.unfold mode kernel.shape dilation = some cm)
    (h : conv input kernel dilation mode pm = .ok (some out)) :
    out.shape =
      specOutputShape cm.padding input.shape (specSpans kernel.shape dilation) cm.strides := by
  obtain ⟨cm2, sp, hcm2, hsp, ho⟩ := conv_ok_inv h
  have hc : cm2 = cm := by
    rw [hcm] at hcm2
    exact (Option.some.inj hcm2).symm
  subst hc
  have hshape := outDimList_some_eq ho
  rw [spanList_some_eq hsp] at hshape
  exact hshape

/-- Witness for C2 at the repository's 2-D custom-mode test vector. -/
theorem conv_output_shape_formula_witness :
    ConvMode.unfold (ConvMode.custom [1, 2] [2, 2])
        (⟨[2, 2], [1, 1, 1, 1]⟩ : NdArray Int).shape [1, 1] =
      some ⟨[(1, 1), (2, 2)], [2, 2]⟩ ∧
    conv (⟨[2, 2], [1, 2, 3, 4]⟩ : NdArray Int) ⟨[2, 2], [1, 1, 1, 1]⟩ [1, 1]
        (ConvMode.custom [1, 2] [2, 2]) PaddingMode.zeros =
      .ok (some ⟨[2, 3], [0, 3, 0, 0, 7, 0]⟩) ∧
    (⟨[2, 3], [0, 3, 0, 0, 7, 0]⟩ : NdArray Int).shape =
      specOutputShape [(1, 1), (2, 2)] [2, 2] (specSpans [2, 2] [1, 1]) [2, 2] :=
  ⟨by decide, by decide,
    @conv_output_shape_formula Int _ _ _ ⟨[2, 2], [1, 2, 3, 4]⟩ ⟨[2, 2], [1, 1, 1, 1]⟩
      [1, 1] (ConvMode.custom [1, 2] [2, 2]) PaddingMode.zeros ⟨[(1, 1), (2, 2)], [2, 2]⟩
      ⟨[2, 3], [0, 3, 0, 0, 7, 0]⟩ (by decide) (by decide)⟩

/-- C9: the mode resolver is total: for every variant and every kernel shape
and dilation whose dilated span is at least 1 in each dimension (no
underflow in the span arithmetic), `unfold` returns a resolved value and no
runtime fault occurs. -/
theorem unfold_total (m : ConvMode) (kshape dilation : List Nat)
    (hlen : kshape.length = dilation.length)
    (hspan : ∀ p ∈ kshape.zip dilation, p.2 ≤ p.1 * p.2) :
    (ConvMode.unfold m kshape dilation).isSome = true := by
  have hsp := spanList_total hlen hspan
  cases m with
  | full => rw [unfold_full_eq hsp]; rfl
  | same => rw [unfold_same_eq hsp]; rfl
  | valid => rw [unfold_valid_eq hsp]; rfl
  | custom pad strides => rw [unfold_custom_eq hsp pad strides]; rfl
  | explicit pad strides => rw [unfold_explicit_eq hsp pad strides]; rfl

/-- Witness for C9 at a concrete shape, dilation and mode. -/
theorem unfold_total_witness :
    ([2, 2] : List Nat).length = ([1, 2] : List Nat).length ∧
    (∀ p ∈ ([2, 2] : List Nat).zip [1, 2], p.2 ≤ p.1 * p.2) ∧
    (ConvMode.unfold ConvMode.full [2, 2] [1, 2]).isSome = true :=
  ⟨by decide, by decide, unfold_total ConvMode.full [2, 2] [1, 2] (by decide) (by decide)⟩

/-- Counterexample to C4 as stated: resolving `Same` for kernel extent 2,
dilation 1 (even dilated span 2), the trailing padding does not receive the
extra cell — the resolver returns `(before, after) = (1, 0)`, so
`after = before + 1` is false. -/
theorem same_even_pad_not_trailing :
    (ConvMode.unfold ConvMode.same [2] [1]).map
      (fun cm => decide ((cm.padding.getD 0 (0, 0)).2 = (cm.padding.getD 0 (0, 0)).1 + 1)) =
    some false := by decide

/-- C4 (amended): when `Same` is resolved and the dilated span in dimension
`i` is even, the extra padding cell goes to the leading (before) side:
`padding[i][0] = padding[i][1] + 1`. -/
theorem same_even_pad_leading {kshape dilation : List Nat} {cm : ExplicitConv} {i : Nat}
    (hu : ConvMode.unfold ConvMode.same kshape dilation = some cm)
    (hi : i < cm.padding.length)
    (heven : (specSpans kshape dilation).getD i 0 % 2 = 0) :
    (cm.padding.getD i (0, 0)).1 = (cm.padding.getD i (0, 0)).2 + 1 := by
  obtain ⟨sp, hsp⟩ := unfold_some_spanList hu
  rw [unfold_same_eq hsp] at hu
  have hcm : cm = ⟨sp.map samePadFn, List.replicate sp.length 1⟩ := (Option.some.inj hu).symm
  subst hcm
  have hi2 : i < sp.length := by simpa using hi
  show ((sp.map samePadFn).getD i (0, 0)).1 = ((sp.map samePadFn).getD i (0, 0)).2 + 1
  rw [getD_map_lt samePadFn sp i 0 (0, 0) hi2]
  rw [← spanList_some_eq hsp] at heven
  unfold samePadFn
  rw [if_pos heven]

/-- Witness for C4 (amended) at kernel extent 2, dilation 1. -/
theorem same_even_pad_leading_witness :
    ConvMode.unfold ConvMode.same [2] [1] = some ⟨[(1, 0)], [1]⟩ ∧
    0 < (⟨[(1, 0)], [1]⟩ : ExplicitConv).padding.length ∧
    (specSpans [2] [1]).getD 0 0 % 2 = 0 ∧
    ((⟨[(1, 0)], [1]⟩ : ExplicitConv).padding.getD 0 (0, 0)).1 =
      ((⟨[(1, 0)], [1]⟩ : ExplicitConv).padding.getD 0 (0, 0)).2 + 1 :=
  ⟨by decide, by decide, by decide,
    @same_even_pad_leading [2] [1] ⟨[(1, 0)], [1]⟩ 0 (by decide) (by decide) (by decide)⟩

/-- Counterexample to C3 as stated: on an input with a zero extent (shape
`[0]`) and kernel `[1]`, `Same`-mode `conv` ends in a runtime arithmetic
fault instead of returning an output of the input's shape. -/
theorem conv_same_empty_input_faults :
    conv (⟨[0], []⟩ : NdArray Int) ⟨[1], [1]⟩ [1] ConvMode.same PaddingMode.zeros =
      .error ConvFault.arith := by decide

/-- C3 (amended): for every input whose extent is at least 1 in each
dimension and every kernel with dilation whose dilated span is at least 1
in each dimension, `Same`-mode `conv` returns an output array whose shape
equals the input's shape (this covers both even and odd dilated spans). -/
theorem conv_same_preserves_shape {T : Type} [Zero T] [Add T] [Mul T]
    (input kernel : NdArray T) (dilation : List Nat) (pm : PaddingMode T)
    (hlen1 : kernel.shape.length = dilation.length)
    (hlen2 : input.shape.length = kernel.shape.length)
    (hspan : ∀ p ∈ kernel.shape.zip dilation, p.2 ≤ p.1 * p.2)
    (hpos : ∀ n ∈ input.shape, 1 ≤ n) :
    ∃ out, conv input kernel dilation ConvMode.same pm = .ok (some out) ∧
      out.shape = input.shape := by
  have hsp := spanList_total hlen1 hspan
  have hu := unfold_same_eq hsp
  have hlensp : (specSpans kernel.shape dilation).length = input.shape.length := by
    simp only [specSpans, List.length_zipWith]
    omega
  have ho := outDim_same (spanList_mem_pos hsp) hpos hlensp
  exact conv_ok_of hu hsp ho

/-- Witness for C3 (amended): a 1-D input of extent 3 with an even dilated
span (kernel extent 2, dilation 1). -/
theorem conv_same_preserves_shape_witness :
    (⟨[2], [1, 1]⟩ : NdArray Int).shape.length = ([1] : List Nat).length ∧
    (⟨[3], [1, 2, 3]⟩ : NdArray Int).shape.length =
      (⟨[2], [1, 1]⟩ : NdArray Int).shape.length ∧
    (∀ p ∈ (⟨[2], [1, 1]⟩ : NdArray Int).shape.zip [1], p.2 ≤ p.1 * p.2) ∧
    (∀ n ∈ (⟨[3], [1, 2, 3]⟩ : NdArray Int).shape, 1 ≤ n) ∧
    ∃ out, conv (⟨[3], [1, 2, 3]⟩ : NdArray Int) ⟨[2], [1, 1]⟩ [1] ConvMode.same
        PaddingMode.zeros = .ok (some out) ∧
      out.shape = (⟨[3], [1, 2, 3]⟩ : NdArray Int).shape :=
  ⟨by decide, by decide, by decide, by decide,
    conv_same_preserves_shape ⟨[3], [1, 2, 3]⟩ ⟨[2], [1, 1]⟩ [1] PaddingMode.zeros
      (by decide) (by decide) (by decide) (by decide)⟩

/-- Counterexample to C5 as stated: on an input with a zero extent (shape
`[0]`) and kernel `[1]` (dilated span 1), `Full`-mode `conv` ends in a
runtime arithmetic fault, so no output of shape `input + span - 1 = [0]` is
returned. -/
theorem conv_full_empty_input_faults :
    conv (⟨[0], []⟩ : NdArray Int) ⟨[1], [1]⟩ [1] ConvMode.full PaddingMode.zeros =
      .error ConvFault.arith := by decide

/-- C5 (amended): for every kernel with dilation whose dilated span is at
least 1 in each dimension, `Full` resolves to padding
`(span - 1, span - 1)` and stride 1 in every dimension, and for every input
with `input_extent + span >= 2` in each dimension the output shape is
`input_extent + span - 1` per dimension. -/
theorem conv_full_shape {T : Type} [Zero T] [Add T] [Mul T]
    (input kernel : NdArray T) (dilation : List Nat) (pm : PaddingMode T)
    (hlen1 : kernel.shape.length = dilation.length)
    (hlen2 : input.shape.length = kernel.shape.length)
    (hspan : ∀ p ∈ kernel.shape.zip dilation, p.2 ≤ p.1 * p.2)
    (hfit : ∀ p ∈ input.shape.zip (specSpans kernel.shape dilation), 2 ≤ p.1 + p.2) :
    ConvMode.unfold ConvMode.full kernel.shape dilation =
      some ⟨(specSpans kernel.shape dilation).map fun s => (s - 1, s - 1),
            List.replicate (specSpans kernel.shape dilation).length 1⟩ ∧
    ∃ out, conv input kernel dilation ConvMode.full pm = .ok (some out) ∧
      out.shape =
        List.zipWith (fun n s => n + s - 1) input.shape (specSpans kernel.shape dilation) := by
  have hsp := spanList_total hlen1 hspan
  have hu := unfold_full_eq hsp
  have hlensp : (specSpans kernel.shape dilation).length = input.shape.length := by
    simp only [specSpans, List.length_zipWith]
    omega
  have ho := outDim_full (spanList_mem_pos hsp) hfit hlensp
  exact ⟨hu, conv_ok_of hu hsp ho⟩

/-- Witness for C5 (amended) at the repository's 2-D full-mode test
vector. -/
theorem conv_full_shape_witness :
    (⟨[2, 2], [1, 1, 1, 1]⟩ : NdArray Int).shape.length = ([1, 1] : List Nat).length ∧
    (⟨[2, 2], [1, 2, 3, 4]⟩ : NdArray Int).shape.length =
      (⟨[2, 2], [1, 1, 1, 1]⟩ : NdArray Int).shape.length ∧
    (∀ p ∈ (⟨[2, 2], [1, 1, 1, 1]⟩ : NdArray Int).shape.zip [1, 1], p.2 ≤ p.1 * p.2) ∧
    (∀ p ∈ (⟨[2, 2], [1, 2, 3, 4]⟩ : NdArray Int).shape.zip
        (specSpans (⟨[2, 2], [1, 1, 1, 1]⟩ : NdArray Int).shape [1, 1]), 2 ≤ p.1 + p.2) ∧
    (ConvMode.unfold ConvMode.full (⟨[2, 2], [1, 1, 1, 1]⟩ : NdArray Int).shape [1, 1] =
      some ⟨(specSpans (⟨[2, 2], [1, 1, 1, 1]⟩ : NdArray Int).shape [1, 1]).map
              fun s => (s - 1, s - 1),
            List.replicate
              (specSpans (⟨[2, 2], [1, 1, 1, 1]⟩ : NdArray Int).shape [1, 1]).length 1⟩ ∧
    ∃ out, conv (⟨[2, 2], [1, 2, 3, 4]⟩ : NdArray Int) ⟨[2, 2], [1, 1, 1, 1]⟩ [1, 1]
        ConvMode.full PaddingMode.zeros = .ok (some out) ∧
      out.shape =
        List.zipWith (fun n s => n + s - 1) (⟨[2, 2], [1, 2, 3, 4]⟩ : NdArray Int).shape
          (specSpans (⟨[2, 2], [1, 1, 1, 1]⟩ : NdArray Int).shape [1, 1])) :=
  ⟨by decide, by decide, by decide, by decide,
    conv_full_shape ⟨[2, 2], [1, 2, 3, 4]⟩ ⟨[2, 2], [1, 1, 1, 1]⟩ [1, 1] PaddingMode.zeros
      (by decide) (by decide) (by decide) (by decide)⟩
